import Mathlib

/-!
Verification development for the GitSavvy diff-view engine
(`core/commands/diff.py`).

The buffer of a diff view is modelled as a `List Char`; character offsets
into the buffer are `Nat`s, matching Sublime Text's character offsets.
View settings are modelled as an explicit record (`DiffViewSettings`);
the external `git` process is modelled by an oracle value (`GitResult`)
supplied as an argument.  Python functions that can raise are modelled
with `Option`/`Except`.
-/

deriving instance DecidableEq for Except

/-! ## Basic text utilities -/

/-- Python `str.isspace` on the ASCII whitespace characters (sufficient for
the diff texts handled here). -/
def pyIsSpace (c : Char) : Bool :=
  c = ' ' || c = '\t' || c = '\n' || c = '\r' || c = '\x0b' || c = '\x0c'

/-- Python `str.rstrip()`: remove trailing whitespace. -/
def pyRstrip (l : List Char) : List Char :=
  (l.reverse.dropWhile pyIsSpace).reverse

/-- Source `line_indentation` (diff.py:734): `len(line) - len(line.lstrip())`,
i.e. the length of the leading whitespace run. -/
def line_indentation (line : List Char) : Nat :=
  (line.takeWhile pyIsSpace).length

/-- Python `text.split('\n')`: always returns at least one (possibly empty)
piece; a trailing newline yields a final empty piece. -/
def splitNl : List Char → List (List Char)
  | [] => [[]]
  | c :: rest =>
    if c = '\n' then [] :: splitNl rest
    else
      match splitNl rest with
      | l :: ls => (c :: l) :: ls
      | [] => [[c]]

/-- Python `'\n'.join(lines)`. -/
def joinNl (lines : List (List Char)) : List Char :=
  List.intercalate [ '\n' ] lines

/-- Whether offset `p` is the start of a line of `buf` (offset 0, or the
previous character is a newline).  This is where the regex anchor `^` of
Sublime's `find_all` can match. -/
def isLineStart (buf : List Char) (p : Nat) : Bool :=
  p = 0 || (buf.get? (p - 1) == some '\n')

/-- All match starts of `view.find_all("^<pat>")` for a literal `pat`:
line-start offsets at which `pat` occurs. -/
def findAllPrefix (buf pat : List Char) : List Nat :=
  (List.range buf.length).filter
    (fun p => isLineStart buf p && pat.isPrefixOf (buf.drop p))

/-- Model of `view.find(needle, 0, sublime.LITERAL)`: the offset of the first
literal occurrence of `needle` in `buf`, if any.  An empty needle yields an
empty `Region`, which callers in the source treat as "not found", so it is
modelled as `none`. -/
def viewFind (buf needle : List Char) : Option Nat :=
  if needle.isEmpty then none
  else (List.range (buf.length + 1)).find?
    (fun p => needle.isPrefixOf (buf.drop p))

/-! ## Data model -/

/-- Source `HunkLine` (diff.py:40): per-line record of a hunk body.  `b` is
the resolved line number on the post-image (b-) side. -/
structure HunkLine where
  mode : Char
  text : List Char
  b : Nat
deriving DecidableEq, Repr

/-- One entry of the per-view undo stack (diff.py:563): the apply arguments
(with `none` holding the place of suppressed flags, as in the source's
argument tuple), the patch text, the origin cursor offsets and the
cached-mode flag at apply time. -/
structure UndoEntry where
  args : List (Option String)
  patch : List Char
  pts : List Nat
  wasCachedMode : Bool
deriving DecidableEq, Repr

/-- The `git_savvy.*` view settings read and written by the diff commands
(set up in `GsDiffCommand.run_async`, diff.py:76-88), as an explicit
record. -/
structure DiffViewSettings where
  disable_diff : Bool := false
  in_cached_mode : Bool := false
  ignore_whitespace : Bool := false
  show_word_diff : Bool := false
  context_lines : Nat := 3
  base_commit : Option (List Char) := none
  target_commit : Option (List Char) := none
  show_diffstat : Bool := true
  disable_stage : Bool := false
  history : List UndoEntry := []
  just_hunked : List Char := []
  raw_diff : Option (List Char) := none
  last_cursors : List (Nat × Nat) := []
deriving DecidableEq, Repr

/-- Python truthiness of an optional string setting (`None` and the empty
string are falsy). -/
def truthy : Option (List Char) → Bool
  | none => false
  | some s => !s.isEmpty

/-- Source `ParsedDiff` (diff.py:27): ordered header spans and hunk spans,
as half-open-ish `(start, end)` offset pairs. -/
structure ParsedDiff where
  headers : List (Nat × Nat)
  hunks : List (Nat × Nat)
deriving DecidableEq, Repr

/-! ## DiffIndex: `parse_diff_in_view` and queries -/

/-- Match ends of `view.find_all(r"^\+\+\+.+\n(?=@@)")` (diff.py:400): for
each line start where the line begins with `+++`, has at least one further
character before its newline, and the next line starts with `@@`, the offset
just after that newline. -/
def headerEndsOf (buf : List Char) : List Nat :=
  (List.range buf.length).filterMap (fun p =>
    if isLineStart buf p then
      let rest := buf.drop p
      if ("+++".data).isPrefixOf rest then
        match rest.findIdx? (fun c => c = '\n') with
        | some k =>
          if 4 ≤ k && ("@@".data).isPrefixOf (rest.drop (k + 1)) then
            some (p + k + 1)
          else none
        | none => none
      else none
    else none)

/-- Insert into a sorted list of naturals. -/
def insertSorted (x : Nat) : List Nat → List Nat
  | [] => [x]
  | y :: ys => if x ≤ y then x :: y :: ys else y :: insertSorted x ys

/-- Insertion sort on naturals. -/
def sortNats : List Nat → List Nat
  | [] => []
  | x :: xs => insertSorted x (sortNats xs)

/-- Python `sorted(list(set(...)))`: sort, then drop duplicates. -/
def sortedDedup (l : List Nat) : List Nat :=
  (sortNats l).dedup

/-- Source `parse_diff_in_view` (diff.py:397-416).  Header starts come from
`^diff` matches, header ends from `^\+\+\+.+\n(?=@@)` match ends, hunk starts
from `^@@` matches.  Hunk ends are the sorted union of the later header
starts, the hunk starts that are not header ends, and `size + 1`. -/
def parse_diff_in_view (buf : List Char) : ParsedDiff :=
  let header_starts := findAllPrefix buf ("diff".data)
  let header_ends := headerEndsOf buf
  let hunk_starts := findAllPrefix buf ("@@".data)
  let hunk_ends := sortedDedup
    (header_starts.drop 1
      ++ hunk_starts.filter (fun x => !header_ends.contains x)
      ++ [buf.length + 1])
  { headers := header_starts.zip header_ends
  , hunks := hunk_starts.zip hunk_ends }

/-- Python's lexicographic `<` on pairs of integers, as used on `(start, end)`
span pairs in `head_and_hunk_for_pt`. -/
def pairLt (a b : Nat × Nat) : Bool :=
  a.1 < b.1 || (a.1 == b.1 && a.2 < b.2)

/-- Source `head_and_hunk_for_pt` (diff.py:419-437).  Finds the first hunk
span containing `pt` (`ok none` if there is none, like the `for/else`),
then takes the `max` of the header spans lexicographically smaller than the
hunk span.  Python's `max` raises `ValueError` on an empty sequence; that
exception is modelled as `Except.error ()`. -/
def head_and_hunk_for_pt (diff : ParsedDiff) (pt : Nat) :
    Except Unit (Option ((Nat × Nat) × (Nat × Nat))) :=
  match diff.hunks.find? (fun h => decide (h.1 ≤ pt ∧ pt < h.2)) with
  | none => .ok none
  | some hunk =>
    match diff.headers.filter (fun hd => pairLt hd hunk) with
    | [] => .error ()
    | x :: xs =>
      .ok (some (xs.foldl (fun acc y => if pairLt acc y then y else acc) x, hunk))

/-- Source `extract_content` (diff.py:440-442): `view.substr` over the span,
clamped to the buffer. -/
def extract_content (buf : List Char) (region : Nat × Nat) : List Char :=
  (buf.drop region.1).take (region.2 - region.1)

/-- Source `unique` (diff.py:362-369): drop duplicates, keeping the first
occurrence order. -/
def unique {α : Type} [DecidableEq α] (items : List α) : List α :=
  items.foldl (fun rv item => if item ∈ rv then rv else rv ++ [item]) []

/-! ## HunkModel: `split_hunk` and the coordinate mapper -/

/-- Greedy decimal-digit run after the first digit: accumulate the value and
return the unconsumed rest. -/
def parseDigitsAux : List Char → Nat → Nat × List Char
  | [], acc => (acc, [])
  | c :: rest, acc =>
    if c.isDigit then parseDigitsAux rest (acc * 10 + (c.toNat - 48))
    else (acc, c :: rest)

/-- Parse `\d+` at the head of the list (at least one digit), returning the
value and the rest. -/
def parseDigits : List Char → Option (Nat × List Char)
  | [] => none
  | c :: rest =>
    if c.isDigit then some (parseDigitsAux rest (c.toNat - 48))
    else none

/-- One anchored attempt of the regex
`@@ -(\d+)(?:,\d+)? \+(\d+)(?:,\d+)? ` (diff.py:702) at the head of `l`,
returning the second capture group (the new-side start line). -/
def matchHunkHeaderAt (l : List Char) : Option Nat :=
  if ("@@ -".data).isPrefixOf l then
    match parseDigits (l.drop 4) with
    | none => none
    | some (_, r1) =>
      let r2 :=
        match r1 with
        | ',' :: rr =>
          match parseDigits rr with
          | some (_, rrr) => rrr
          | none => r1
        | _ => r1
      if (" +".data).isPrefixOf r2 then
        match parseDigits (r2.drop 2) with
        | none => none
        | some (b, r3) =>
          let r4 :=
            match r3 with
            | ',' :: rr =>
              match parseDigits rr with
              | some (_, rrr) => rrr
              | none => r3
            | _ => r3
          match r4 with
          | ' ' :: _ => some b
          | _ => none
      else none
  else none

/-- Python's `re.search` with `HUNKS_LINES_RE`: try the anchored match at
every position, left to right. -/
def searchHunkHeader : List Char → Option Nat
  | [] => none
  | l@(_ :: rest) =>
    match matchHunkHeaderAt l with
    | some b => some b
    | none => searchHunkHeader rest

/-- Source `_recount_lines` (diff.py:721-731): each body line yields a
`HunkLine` carrying the running b-side line number, which advances after
every line whose mode is not `'-'`.  An empty body line would raise
`IndexError` in the source (`line[0]`); that is modelled as `none`. -/
def recountLines : List (List Char) → Nat → Option (List HunkLine)
  | [], _ => some []
  | [] :: _, _ => none
  | (c :: rest) :: ls, b =>
    (recountLines ls (if c = '-' then b else b + 1)).map
      (fun tl => { mode := c, text := rest, b := b } :: tl)

/-- Source `split_hunk` (diff.py:705-718): strip trailing whitespace, split
into lines, parse the `@@` header for the new-side start, and recount the
body lines. -/
def split_hunk (hunk : List Char) : Option (List HunkLine) :=
  match splitNl (pyRstrip hunk) with
  | [] => none
  | head :: tail =>
    match searchHunkHeader head with
    | none => none
    | some b => recountLines tail b

/-- The retargeting of a cursor that sat on the `@@` header line
(diff.py:667-676): 1-based index of the first body line whose mode is `+` or
`' '` and whose text is not blank, defaulting to 1. -/
def firstContentRow (hl : List HunkLine) : Nat :=
  match hl.findIdx? (fun l =>
      (l.mode = '+' || l.mode = ' ') && l.text.any (fun c => !pyIsSpace c)) with
  | some i => i + 1
  | none => 1

/-- The `for`/`else` loop of `real_rowcol_in_hunk` for a cursor on a deleted
line (diff.py:686-699): scan forward for the first following line whose mode
is `'+'` or `' '`; if none exists, fall back to `(line.b, 1)`. -/
def deletedLineFallback (line : HunkLine) (col : Nat) : List HunkLine → Nat × Nat
  | [] => (line.b, 1)
  | next :: rest =>
    if next.mode = '+' then
      (next.b, min col (next.text.length + 1))
    else if next.mode = ' ' then
      if line_indentation next.text = line_indentation line.text then
        (next.b, line_indentation next.text + 1)
      else (max 1 (line.b - 1), 1)
    else deletedLineFallback line col rest

/-- Source `real_rowcol_in_hunk` (diff.py:656-699): translate a
hunk-relative `(row, col)` to a b-side file position.  A relative row
pointing past the parsed hunk lines would raise `IndexError` in the source;
that is modelled as `none`. -/
def real_rowcol_in_hunk (hunk : List Char) (relRowcol : Nat × Nat) :
    Option (Nat × Nat) :=
  match split_hunk hunk with
  | none => none
  | some [] => none
  | some hunk_lines =>
    let rc :=
      if relRowcol.1 = 0 then (firstContentRow hunk_lines, 1)
      else relRowcol
    match hunk_lines.get? (rc.1 - 1) with
    | none => none
    | some line =>
      if line.mode ≠ '-' then some (line.b, rc.2)
      else some (deletedLineFallback line rc.2 (hunk_lines.drop rc.1))

/-! ## ContextPreservation: hunk relocation -/

/-- Fuel-indexed body of `shrink_list_sym`; the fuel is always instantiated
with the list length, which bounds the number of yields. -/
def shrinkAux {α : Type} : Nat → List α → List (List α)
  | _, [] => []
  | 0, _ :: _ => []
  | fuel + 1, x :: xs => (x :: xs) :: shrinkAux fuel xs.dropLast

/-- Source `shrink_list_sym` (diff.py:331-335): yield the list, then
repeatedly the previous yield with its first and last element dropped
(`list[1:-1]`), while the list is non-empty. -/
def shrinkListSym {α : Type} (l : List α) : List (List α) :=
  shrinkAux l.length l

/-- Whether a line does not start a hunk (`not line.startswith('@@ ')`,
diff.py:302). -/
def notHunkStart (l : List Char) : Bool :=
  !(("@@ ".data).isPrefixOf l)

/-- Source `extract_first_hunk` (diff.py:299-309): drop lines up to the
first `@@ `-line; `none` if there is none; otherwise that line plus the
following lines up to (exclusive) the next `@@ `-line. -/
def extract_first_hunk (patch : List Char) : Option (List (List Char)) :=
  match (splitNl patch).dropWhile notHunkStart with
  | [] => none
  | start :: rest => some (start :: rest.takeWhile notHunkStart)

/-- Offsets at which each line of `buf` starts (row `r` starts at entry
`r`). -/
def lineStartsOf (buf : List Char) : List Nat :=
  0 :: (List.range buf.length).filterMap
    (fun p => if buf.get? p = some '\n' then some (p + 1) else none)

/-- The text of row `r` of `buf` (without its newline), if the row exists. -/
def lineTextAtRow (buf : List Char) (r : Nat) : Option (List Char) :=
  ((lineStartsOf buf).get? r).map
    (fun p => (buf.drop p).takeWhile (fun c => c ≠ '\n'))

/-- Walk rows `r - 1, …, 0` looking for a line starting with `@@ `; return
the start offset of the first one found (the loop of
`find_hunk_start_before_pt` over `line_regions_before_pt`,
diff.py:338-351). -/
def findHunkRowDown (buf : List Char) : Nat → Option Nat
  | 0 => none
  | r + 1 =>
    match lineTextAtRow buf r with
    | some t =>
      if ("@@ ".data).isPrefixOf t then (lineStartsOf buf).get? r
      else findHunkRowDown buf r
    | none => findHunkRowDown buf r

/-- Source `find_hunk_start_before_pt` (diff.py:338-343), returning the
found line's start offset. -/
def find_hunk_start_before_pt (buf : List Char) (pt : Nat) : Option Nat :=
  findHunkRowDown buf (List.count '\n' (buf.take pt))

/-- The `for` loop of `fuzzy_search_hunk_content_in_view` (diff.py:324-328)
over the successive shrinks. -/
def firstShrinkMatch (buf : List Char) : List (List (List Char)) → Option Nat
  | [] => none
  | hc :: rest =>
    match viewFind buf (joinNl hc) with
    | some p => find_hunk_start_before_pt buf p
    | none => firstShrinkMatch buf rest

/-- Source `fuzzy_search_hunk_content_in_view` (diff.py:312-328). -/
def fuzzy_search_hunk_content_in_view (buf : List Char)
    (lines : List (List Char)) : Option Nat :=
  firstShrinkMatch buf (shrinkListSym lines)

/-- Source `find_hunk_in_view` (diff.py:283-296): locate the first hunk of
`patch` in the buffer by literal search for its `@@` line, falling back to
the fuzzy body search; returns the found region's start offset. -/
def find_hunk_in_view (buf patch : List Char) : Option Nat :=
  match extract_first_hunk patch with
  | none => none
  | some [] => none
  | some (first :: rest) =>
    match viewFind buf first with
    | some p => some p
    | none => fuzzy_search_hunk_content_in_view buf rest

/-! ## PatchApplicator: the stage/discard command -/

/-- The argument tuple built in `GsDiffStageOrResetHunkCommand.apply_patch`
(diff.py:550-556).  `none` entries are the `None` placeholders of the
source's tuple (filtered out before the process call, but kept positionally
for the undo command's in-place flag flip).  `"--cached"` targets the index
only; its absence applies the patch to the working tree together with
`git apply`'s index handling as described in the source's comment
(diff.py:534-548). -/
def applyPatchArgs (in_cached_mode reset : Bool) (context_lines : Nat) :
    List (Option String) :=
  [ some ("apply")
  , if reset || in_cached_mode then some ("-R") else none
  , if in_cached_mode || !reset then some ("--cached") else none
  , if context_lines = 0 then some ("--unidiff-zero") else none
  , some ("-") ]

/-- The resolution of each zero-width cursor to its (header, hunk) span pair
(diff.py:520): `None` results are filtered out (`filter_`), and the
`ValueError` of `head_and_hunk_for_pt` propagates. -/
def resolvedSpans (diff : ParsedDiff) : List Nat →
    Except Unit (List ((Nat × Nat) × (Nat × Nat)))
  | [] => .ok []
  | pt :: rest => do
    let r ← head_and_hunk_for_pt diff pt
    let tl ← resolvedSpans diff rest
    match r with
    | none => pure tl
    | some p => pure (p :: tl)

/-- The patch synthesis of `GsDiffStageOrResetHunkCommand.run`
(diff.py:515-521): parse the buffer, resolve the cursors, flatten the
(header, hunk) pairs, de-duplicate the spans, extract their texts and
concatenate. -/
def synthesizedPatch (buf : List Char) (pts : List Nat) :
    Except Unit (List Char) :=
  (resolvedSpans (parse_diff_in_view buf) pts).map (fun pairs =>
    ((unique (pairs.flatMap (fun p => [p.1, p.2]))).map
      (extract_content buf)).flatten)

/-- Observable outcome of `GsDiffStageOrResetHunkCommand.run`.  `applied`
means `git apply` was invoked with the given argument tuple and patch, an
undo entry was pushed, and a refresh was triggered; the other constructors
invoke no git command. -/
inductive StageOutcome where
  | errorMessage (msg : String)
  | statusMessage (msg : String)
  | invariantViolation
  | applied (args : List (Option String)) (patch : List Char)
deriving DecidableEq, Repr

/-- Projection: the `git apply` argument tuple of an `applied` outcome, if
any. -/
def stageArgs : StageOutcome → Option (List (Option String))
  | .applied args _ => some args
  | _ => none

/-- Source `GsDiffStageOrResetHunkCommand.run` together with `apply_patch`
(diff.py:506-567): guard against dirty diffs, synthesize the patch from the
zero-width cursors, and on a non-empty patch invoke `git apply` and record
the undo entry and relocation hint.  Returns the outcome and the settings
after the command. -/
def gsDiffStageOrResetHunk (s : DiffViewSettings) (buf : List Char)
    (sel : List (Nat × Nat)) (reset : Bool) :
    StageOutcome × DiffViewSettings :=
  if s.ignore_whitespace || s.show_word_diff then
    (.errorMessage ("You have to be in a clean diff to stage."), s)
  else
    let cursor_pts := (sel.filter (fun c => c.1 == c.2)).map (fun c => c.1)
    match synthesizedPatch buf cursor_pts with
    | .error _ => (.invariantViolation, s)
    | .ok patch =>
      if patch.isEmpty then (.statusMessage ("Not within a hunk"), s)
      else
        let args := applyPatchArgs s.in_cached_mode reset s.context_lines
        ( .applied args patch
        , { s with
              history := s.history ++
                [{ args := args, patch := patch, pts := cursor_pts
                 , wasCachedMode := s.in_cached_mode }]
              , just_hunked := patch } )

/-! ## Refresh and toggle-cached-mode commands -/

/-- Result of the external `git diff` invocation: its decoded output, or a
failure which either is a `UnicodeDecodeError` or any other
`GitSavvyError`. -/
inductive GitResult where
  | ok (diff : List Char)
  | err (decodeError : Bool)
deriving DecidableEq, Repr

/-- Python `a or b` on two optional strings. -/
def pyOrStr (a b : Option (List Char)) : Option (List Char) :=
  if truthy a then a else b

/-- Python `"{}".format(x)` on an optional string (`None` formats as
`"None"`). -/
def fmtOpt : Option (List Char) → List Char
  | some s => s
  | none => "None".data

/-- The prelude built by `GsDiffRefreshCommand._run` (diff.py:154-174);
`rel` is the relative file path, when the view is file-scoped. -/
def preludeFor (s : DiffViewSettings) (rel : Option (List Char)) : List Char :=
  let p1 := "\n".data ++
    (match rel with
     | some f => "  FILE: ".data ++ f ++ "\n".data
     | none => [])
  let p2 := p1 ++
    (if s.disable_stage then
      (if s.in_cached_mode then
        "  INDEX..".data ++ fmtOpt (pyOrStr s.base_commit s.target_commit)
          ++ "\n".data
      else if truthy s.base_commit && truthy s.target_commit then
        "  ".data ++ fmtOpt s.base_commit ++ "..".data
          ++ fmtOpt s.target_commit ++ "\n".data
      else
        "  WORKING DIR..".data ++ fmtOpt (pyOrStr s.base_commit s.target_commit)
          ++ "\n".data)
    else if s.in_cached_mode then "  STAGED CHANGES (Will commit)\n".data
    else "  UNSTAGED CHANGES\n".data)
  p2 ++ (if s.ignore_whitespace then "  IGNORING WHITESPACE\n".data else [])

/-- Observable outcome of `GsDiffRefreshCommand._run`: the settings after
the call, the replacement view text if the view was rewritten, whether the
external diff computation was invoked, whether `gs_diff_navigate` ran, and
whether a non-decode `GitSavvyError` was re-raised. -/
structure RefreshOutcome where
  settings : DiffViewSettings
  newText : Option (List Char)
  calledGit : Bool
  navigated : Bool
  raised : Bool
deriving DecidableEq, Repr

/-- Source `GsDiffRefreshCommand._run` (diff.py:142-212): a no-op when the
per-view `disable_diff` flag is set; otherwise run `git diff`; a
`UnicodeDecodeError` sets the sticky `disable_diff` flag and stops; any
other error re-raises; on success store the raw diff and replace the view
text. -/
def gsDiffRefresh (s : DiffViewSettings) (rel : Option (List Char))
    (git : GitResult) : RefreshOutcome :=
  if s.disable_diff then
    { settings := s, newText := none, calledGit := false
    , navigated := false, raised := false }
  else
    match git with
    | .err true =>
      { settings := { s with disable_diff := true }, newText := none
      , calledGit := true, navigated := false, raised := false }
    | .err false =>
      { settings := s, newText := none, calledGit := true
      , navigated := false, raised := true }
    | .ok diff =>
      { settings := { s with raw_diff := some diff }
      , newText := some (preludeFor s rel ++ "\n--\n".data ++ diff)
      , calledGit := true
      , navigated := !truthy s.raw_diff
      , raised := false }

/-- Iterated refreshes: the settings after running
`GsDiffRefreshCommand._run` once per element of `gits`. -/
def refreshIterate (s : DiffViewSettings) (rel : Option (List Char))
    (gits : List GitResult) : DiffViewSettings :=
  gits.foldl (fun st g => (gsDiffRefresh st rel g).settings) s

/-- Where `set_and_show_cursor` was pointed at the end of
`GsDiffToggleCachedMode.run`: a single offset (hunk relocation) or a list
of restored regions. -/
inductive CursorTarget where
  | point (p : Nat)
  | regions (rs : List (Nat × Nat))
deriving DecidableEq, Repr

/-- Observable outcome of `GsDiffToggleCachedMode.run`. -/
structure ToggleResult where
  settings : DiffViewSettings
  newText : Option (List Char)
  refreshed : Bool
  statusMessage : Option String
  cursorTarget : Option CursorTarget
  raised : Bool
deriving DecidableEq, Repr

/-- Source `GsDiffToggleCachedMode.run` (diff.py:240-280).  When both
commits are set, swap them and refresh.  Otherwise save the current
selection, flip `in_cached_mode`, refresh, and restore the cursor from the
`just_hunked` relocation hint or the previously saved cursors.  `viewText`
is the view's text before the call (used by `find_hunk_in_view` when the
refresh does not rewrite it); `git` is the oracle for the refresh's diff
invocation. -/
def gsDiffToggleCachedMode (s : DiffViewSettings) (rel : Option (List Char))
    (viewText : List Char) (sel : List (Nat × Nat)) (git : GitResult) :
    ToggleResult :=
  if truthy s.base_commit && truthy s.target_commit then
    let s1 := { s with base_commit := s.target_commit
                     , target_commit := s.base_commit }
    let r := gsDiffRefresh s1 rel git
    { settings := r.settings, newText := r.newText, refreshed := true
    , statusMessage := none, cursorTarget := none, raised := r.raised }
  else
    let last_cursors := s.last_cursors
    let s1 := { s with last_cursors := sel }
    let s2 := { s1 with in_cached_mode := !s1.in_cached_mode }
    let msg := if s2.in_cached_mode then "Showing staged changes"
               else "Showing unstaged changes"
    let r := gsDiffRefresh s2 rel git
    if r.raised then
      { settings := r.settings, newText := r.newText, refreshed := true
      , statusMessage := some msg, cursorTarget := none, raised := true }
    else
      let textAfter := r.newText.getD viewText
      if !r.settings.just_hunked.isEmpty && !last_cursors.isEmpty then
        let s3 := { r.settings with just_hunked := [] }
        match find_hunk_in_view textAfter r.settings.just_hunked with
        | some p =>
          { settings := s3, newText := r.newText, refreshed := true
          , statusMessage := some msg, cursorTarget := some (.point p)
          , raised := false }
        | none =>
          { settings := s3, newText := r.newText, refreshed := true
          , statusMessage := some msg
          , cursorTarget :=
              if last_cursors.isEmpty then none
              else some (.regions last_cursors)
          , raised := false }
      else
        { settings := r.settings, newText := r.newText, refreshed := true
        , statusMessage := some msg
        , cursorTarget :=
            if last_cursors.isEmpty then none
            else some (.regions last_cursors)
        , raised := false }

/-! ## Definitions modelled from the spec's words (for refutation) -/

/-- Modelled from the spec: claim C2 describes the synthesized patch as
de-duplicated "by exact text equality".  Identical to `synthesizedPatch`
except that the extracted block texts, not the spans, are de-duplicated. -/
def specPatchTextDedup (buf : List Char) (pts : List Nat) :
    Except Unit (List Char) :=
  (resolvedSpans (parse_diff_in_view buf) pts).map (fun pairs =>
    (unique ((pairs.flatMap (fun p => [p.1, p.2])).map
      (extract_content buf))).flatten)

/-- Modelled from the spec: claim C3 says the scan from a deleted line
prefers "the first `+` line found", and only "failing that, the first `' '`
(context) line found". -/
def specDeletedLineTarget (line : HunkLine) (col : Nat)
    (rest : List HunkLine) : Nat × Nat :=
  match rest.find? (fun l => l.mode == '+') with
  | some plus => (plus.b, min col (plus.text.length + 1))
  | none =>
    match rest.find? (fun l => l.mode == ' ') with
    | some ctx =>
      if line_indentation ctx.text = line_indentation line.text then
        (ctx.b, line_indentation ctx.text + 1)
      else (max 1 (line.b - 1), 1)
    | none => (line.b, 1)

/-! ## Concrete fixtures -/

/-- A one-file, one-hunk diff buffer. -/
def buf1 : List Char :=
  "diff --git a/f b/f\n--- a/f\n+++ b/f\n@@ -1 +1 @@\n-a\n+b\n".data

/-- A two-file diff buffer whose two hunks have exactly the same text
(same `@@` line, same body). -/
def buf2 : List Char :=
  ("diff --git a/f b/f\n--- a/f\n+++ b/f\n@@ -1 +1 @@\n-a\n+b\n"
    ++ "diff --git a/g b/g\n--- a/g\n+++ b/g\n@@ -1 +1 @@\n-a\n+b\n").data

/-- The hunk of claim C3's example:
`@@ -1,3 +1,4 @@\n line1\n+line2\n-line3\n line4`. -/
def exampleHunk : List Char :=
  "@@ -1,3 +1,4 @@\n line1\n+line2\n-line3\n line4".data

/-- The parsed lines of `exampleHunk`. -/
def exampleHunkLines : List HunkLine :=
  [ { mode := ' ', text := "line1".data, b := 1 }
  , { mode := '+', text := "line2".data, b := 2 }
  , { mode := '-', text := "line3".data, b := 3 }
  , { mode := ' ', text := "line4".data, b := 3 } ]

/-- A hunk in which a deleted line is followed first by a context line and
only then by a `+` line. -/
def hunk3 : List Char :=
  "@@ -1,2 +1,2 @@\n-del\n ctx\n+add".data

/-- Settings of a view sitting in cached mode. -/
def cachedSettings : DiffViewSettings :=
  { in_cached_mode := true }

/-! ## Helper lemmas about `unique` -/

theorem mem_unique_step {α : Type} [DecidableEq α] (acc : List α) (y x : α) :
    x ∈ (if y ∈ acc then acc else acc ++ [y]) ↔ x ∈ acc ∨ x = y := by
  by_cases hy : y ∈ acc
  · simp only [hy, if_true]
    constructor
    · exact Or.inl
    · rintro (hx | rfl)
      · exact hx
      · exact hy
  · simp [hy]

theorem mem_unique_foldl {α : Type} [DecidableEq α] (l : List α) :
    ∀ (acc : List α) (x : α),
      x ∈ l.foldl (fun rv item => if item ∈ rv then rv else rv ++ [item]) acc ↔
        x ∈ acc ∨ x ∈ l := by
  induction l with
  | nil => intro acc x; simp
  | cons y t ih =>
    intro acc x
    rw [List.foldl_cons, ih, mem_unique_step]
    simp [or_assoc]

theorem nodup_unique_foldl {α : Type} [DecidableEq α] (l : List α) :
    ∀ (acc : List α), acc.Nodup →
      (l.foldl (fun rv item => if item ∈ rv then rv else rv ++ [item]) acc).Nodup := by
  induction l with
  | nil => intro acc h; simpa using h
  | cons y t ih =>
    intro acc h
    rw [List.foldl_cons]
    apply ih
    by_cases hy : y ∈ acc
    · simpa [hy]
    · simp only [hy, if_false]
      simp [List.nodup_append, h, hy]

/-- `unique` preserves membership. -/
theorem mem_unique {α : Type} [DecidableEq α] (l : List α) (x : α) :
    x ∈ unique l ↔ x ∈ l := by
  unfold unique
  rw [mem_unique_foldl]
  simp

/-- The output of `unique` has no duplicates. -/
theorem unique_nodup {α : Type} [DecidableEq α] (l : List α) :
    (unique l).Nodup := by
  unfold unique
  exact nodup_unique_foldl l [] List.nodup_nil

/-! ## Claim C2 -/

/-- Number of occurrences of `a` in `l`. -/
def countOcc {α : Type} [DecidableEq α] (a : α) (l : List α) : Nat :=
  (l.filter (fun x => x = a)).length

theorem countOcc_eq_one_of_mem_of_nodup {α : Type} [DecidableEq α] {a : α} :
    ∀ {l : List α}, l.Nodup → a ∈ l → countOcc a l = 1 := by
  intro l
  induction l with
  | nil => intro _ h; cases h
  | cons x t ih =>
    intro hnd hmem
    have hx : x ∉ t := (List.nodup_cons.mp hnd).1
    have hndt : t.Nodup := (List.nodup_cons.mp hnd).2
    by_cases hax : x = a
    · subst hax
      have ht : t.filter (fun y => decide (y = x)) = [] := by
        apply List.filter_eq_nil_iff.mpr
        intro y hy
        simp only [decide_eq_true_eq]
        intro hyx
        exact hx (hyx ▸ hy)
      simp [countOcc, List.filter_cons, ht]
    · have ha : a ∈ t := by
        rcases List.mem_cons.mp hmem with h | h
        · exact absurd h.symm hax
        · exact h
      have := ih hndt ha
      simpa [countOcc, List.filter_cons, hax] using this

/-- C2, counterexample: on a buffer with two textually identical hunks in
two different files, the patch synthesized by
`GsDiffStageOrResetHunkCommand.run` for a cursor in each hunk contains the
identical hunk text twice (spans are de-duplicated), whereas de-duplicating
the blocks "by exact text equality", as the claim states, would drop the
second hunk's text.  The claim as stated is therefore false on the code. -/
theorem C2_counterexample :
    synthesizedPatch buf2 [40, 95] = .ok buf2 ∧
      synthesizedPatch buf2 [40, 95] ≠ specPatchTextDedup buf2 [40, 95] := by
  constructor
  · decide
  · decide

/-- C2, amended: the synthesized patch is the concatenation of the extracted
texts of the resolved (header, hunk) span pairs, flattened in resolution
order and de-duplicated by span (offset-pair) equality — not by text
equality.  The de-duplicated span list has no duplicates, so a hunk lying
under two cursors contributes its span, and hence its text, exactly once. -/
theorem C2_amended (buf : List Char) (pts : List Nat)
    (pairs : List ((Nat × Nat) × (Nat × Nat)))
    (h : resolvedSpans (parse_diff_in_view buf) pts = .ok pairs) :
    synthesizedPatch buf pts =
      .ok (((unique (pairs.flatMap (fun p => [p.1, p.2]))).map
        (extract_content buf)).flatten)
    ∧ (unique (pairs.flatMap (fun p => [p.1, p.2]))).Nodup
    ∧ ∀ p ∈ pairs,
        countOcc p.2 (unique (pairs.flatMap (fun p => [p.1, p.2]))) = 1 := by
  refine ⟨?_, unique_nodup _, ?_⟩
  · unfold synthesizedPatch
    rw [h]
    rfl
  · intro p hp
    apply countOcc_eq_one_of_mem_of_nodup (unique_nodup _)
    rw [mem_unique]
    exact List.mem_flatMap.mpr ⟨p, hp, by simp⟩

/-- C2, witness: on `buf1` with two cursors inside the same (single) hunk,
the hunk span `(35, 54)` occurs exactly once in the de-duplicated span
list. -/
theorem C2_witness :
    countOcc ((35 : Nat), (54 : Nat))
      (unique (([(((0 : Nat), (35 : Nat)), ((35 : Nat), (54 : Nat))),
        (((0 : Nat), (35 : Nat)), ((35 : Nat), (54 : Nat)))]).flatMap
          (fun p => [p.1, p.2]))) = 1 := by
  exact (C2_amended buf1 [40, 45] [((0, 35), (35, 54)), ((0, 35), (35, 54))]
    (by decide)).2.2 ((0, 35), (35, 54)) (by decide)

/-! ## Claim C4 -/

theorem pairLt_iff (a b : Nat × Nat) :
    pairLt a b = true ↔ a.1 < b.1 ∨ (a.1 = b.1 ∧ a.2 < b.2) := by
  simp [pairLt]

theorem pairLt_false_iff (a b : Nat × Nat) :
    pairLt a b = false ↔ ¬(a.1 < b.1 ∨ (a.1 = b.1 ∧ a.2 < b.2)) := by
  rw [← pairLt_iff]
  simp

theorem pairLt_max_aux1 {x y r : Nat × Nat} (h1 : pairLt x y = true)
    (h2 : pairLt r y = false) : pairLt r x = false := by
  rw [pairLt_iff] at h1
  rw [pairLt_false_iff] at h2 ⊢
  omega

theorem pairLt_max_aux2 {x y r : Nat × Nat} (h1 : pairLt x y = false)
    (h2 : pairLt r x = false) : pairLt r y = false := by
  rw [pairLt_false_iff] at h1 h2 ⊢
  omega

/-- The `max` computed by the fold in `head_and_hunk_for_pt` is an element
of the list and is lexicographically maximal in it. -/
theorem foldlMax_spec (xs : List (Nat × Nat)) :
    ∀ x : Nat × Nat,
      (xs.foldl (fun acc y => if pairLt acc y then y else acc) x ∈ x :: xs)
      ∧ ∀ z ∈ x :: xs,
          pairLt (xs.foldl (fun acc y => if pairLt acc y then y else acc) x) z
            = false := by
  induction xs with
  | nil =>
    intro x
    refine ⟨List.mem_singleton.mpr rfl, ?_⟩
    intro z hz
    rw [List.mem_singleton.mp hz]
    simp only [List.foldl_nil]
    rw [pairLt_false_iff]
    omega
  | cons y ys ih =>
    intro x
    obtain ⟨hmem, hmax⟩ := ih (if pairLt x y then y else x)
    rw [List.foldl_cons]
    constructor
    · rcases List.mem_cons.mp hmem with h | h
      · rw [h]
        by_cases hxy : pairLt x y = true
        · rw [if_pos hxy]
          exact List.mem_cons_of_mem _ (List.mem_cons_self _ _)
        · rw [if_neg hxy]
          exact List.mem_cons_self _ _
      · exact List.mem_cons_of_mem _ (List.mem_cons_of_mem _ h)
    · intro z hz
      have hstep := hmax _ (List.mem_cons_self _ _)
      rcases List.mem_cons.mp hz with hzx | hz'
      · subst hzx
        by_cases hxy : pairLt z y = true
        · rw [if_pos hxy] at hstep ⊢
          exact pairLt_max_aux1 hxy hstep
        · rw [if_neg hxy] at hstep ⊢
          exact hstep
      · rcases List.mem_cons.mp hz' with hzy | hz''
        · subst hzy
          by_cases hxy : pairLt x z = true
          · rw [if_pos hxy] at hstep ⊢
            exact hstep
          · rw [if_neg hxy] at hstep ⊢
            have hxy' : pairLt x z = false := by
              revert hxy
              cases pairLt x z <;> simp
            exact pairLt_max_aux2 hxy' hstep
        · exact hmax _ (List.mem_cons_of_mem _ hz'')

/-- With pairwise-disjoint hunk spans, the `for` loop of
`head_and_hunk_for_pt` finds exactly the span containing `pt`. -/
theorem find_containing_of_disjoint {pt : Nat} :
    ∀ {hunks : List (Nat × Nat)},
      List.Pairwise
        (fun a b => ∀ q : Nat, ¬(a.1 ≤ q ∧ q < a.2 ∧ b.1 ≤ q ∧ q < b.2))
        hunks →
      ∀ hunk ∈ hunks, hunk.1 ≤ pt → pt < hunk.2 →
        hunks.find? (fun h => decide (h.1 ≤ pt ∧ pt < h.2)) = some hunk := by
  intro hunks
  induction hunks with
  | nil => intro _ hunk h; cases h
  | cons h0 t ih =>
    intro hpw hunk hmem h1 h2
    rcases List.mem_cons.mp hmem with rfl | hmem'
    · exact List.find?_cons_of_pos _ (by simp [h1, h2])
    · have hdisj : ∀ q : Nat, ¬(h0.1 ≤ q ∧ q < h0.2 ∧ hunk.1 ≤ q ∧ q < hunk.2) :=
        (List.pairwise_cons.mp hpw).1 hunk hmem'
      have hnot : ¬(h0.1 ≤ pt ∧ pt < h0.2) := by
        intro hin
        exact hdisj pt ⟨hin.1, hin.2, h1, h2⟩
      rw [List.find?_cons_of_neg _ (by simpa using hnot)]
      exact ih (List.pairwise_cons.mp hpw).2 hunk hmem' h1 h2

/-- C4, confirmed: offsets outside all hunk spans resolve to "not found"
(`ok none`); an offset inside a hunk span (with the spans pairwise
disjoint) resolves to that hunk paired with the lexicographically greatest
header span before it, and raises (`error`) when no header span precedes
the hunk. -/
theorem C4_head_and_hunk (diff : ParsedDiff) (pt : Nat) :
    ((∀ h ∈ diff.hunks, ¬(h.1 ≤ pt ∧ pt < h.2)) →
      head_and_hunk_for_pt diff pt = .ok none)
    ∧ (List.Pairwise
        (fun a b => ∀ q : Nat, ¬(a.1 ≤ q ∧ q < a.2 ∧ b.1 ≤ q ∧ q < b.2))
        diff.hunks →
      ∀ hunk ∈ diff.hunks, hunk.1 ≤ pt → pt < hunk.2 →
        ((∀ hd ∈ diff.headers, pairLt hd hunk = false) →
          head_and_hunk_for_pt diff pt = .error ())
        ∧ ((∃ hd ∈ diff.headers, pairLt hd hunk = true) →
          ∃ hd, head_and_hunk_for_pt diff pt = .ok (some (hd, hunk))
            ∧ hd ∈ diff.headers ∧ pairLt hd hunk = true
            ∧ ∀ hd' ∈ diff.headers, pairLt hd' hunk = true →
                pairLt hd hd' = false)) := by
  constructor
  · intro hout
    have hfn : diff.hunks.find? (fun h => decide (h.1 ≤ pt ∧ pt < h.2)) = none := by
      apply List.find?_eq_none.mpr
      intro h hmem
      simpa using hout h hmem
    simp only [head_and_hunk_for_pt, hfn]
  · intro hpw hunk hmem h1 h2
    have hfind := find_containing_of_disjoint hpw hunk hmem h1 h2
    constructor
    · intro hnone
      have hfil : diff.headers.filter (fun hd => pairLt hd hunk) = [] := by
        apply List.filter_eq_nil_iff.mpr
        intro hd hhd
        simp [hnone hd hhd]
      simp only [head_and_hunk_for_pt, hfind, hfil]
    · rintro ⟨hd0, hhd0, hlt0⟩
      have hne : diff.headers.filter (fun hd => pairLt hd hunk) ≠ [] := by
        intro hnil
        have := List.filter_eq_nil_iff.mp hnil hd0 hhd0
        simp [hlt0] at this
      rcases hfe : diff.headers.filter (fun hd => pairLt hd hunk) with _ | ⟨x, xs⟩
      · exact absurd hfe hne
      · obtain ⟨hmemM, hmaxM⟩ := foldlMax_spec xs x
        refine ⟨xs.foldl (fun acc y => if pairLt acc y then y else acc) x,
          ?_, ?_, ?_, ?_⟩
        · simp only [head_and_hunk_for_pt, hfind, hfe]
        · have hmf : xs.foldl (fun acc y => if pairLt acc y then y else acc) x
              ∈ diff.headers.filter (fun hd => pairLt hd hunk) := by
            rw [hfe]
            exact hmemM
          exact (List.mem_filter.mp hmf).1
        · have hmf : xs.foldl (fun acc y => if pairLt acc y then y else acc) x
              ∈ diff.headers.filter (fun hd => pairLt hd hunk) := by
            rw [hfe]
            exact hmemM
          exact (List.mem_filter.mp hmf).2
        · intro hd' hhd' hlt'
          apply hmaxM
          rw [← hfe]
          exact List.mem_filter.mpr ⟨hhd', hlt'⟩

/-- C4, witness: on a concrete parsed diff, an offset outside the only hunk
span resolves to "not found". -/
theorem C4_witness :
    head_and_hunk_for_pt { headers := [(0, 10)], hunks := [(10, 20)] } 25
      = .ok none :=
  (C4_head_and_hunk { headers := [(0, 10)], hunks := [(10, 20)] } 25).1
    (by decide)

/-! ## Claim C1 -/

/-- C1, counterexample: in cached mode with `reset=false` (the stage
keybinding), `GsDiffStageOrResetHunkCommand` does act: it invokes
`git apply -R --cached` (a reverse apply against the index only) and pushes
an undo entry — it is not a no-action combination as the claim states.  The
exclusion the source's NOTE describes (diff.py:547-548) concerns the
`reset=true` keybinding, which is the combination never invoked in cached
mode. -/
theorem C1_counterexample :
    stageArgs (gsDiffStageOrResetHunk cachedSettings buf1 [(40, 40)] false).1
      = some [some ("apply"), some ("-R"), some ("--cached"), none, some ("-")]
    ∧ (gsDiffStageOrResetHunk cachedSettings buf1 [(40, 40)] false).2.history
        ≠ cachedSettings.history := by
  constructor
  · decide
  · decide

/-- C1, amended: for a non-empty synthesized patch, `apply_patch` issues
`git apply` with no reverse flag and `--cached` (index only) when
`cachedMode=false, reset=false`; with `-R` and no `--cached` (index and
working tree, per the source's comment) when `cachedMode=false, reset=true`;
and with `-R --cached` (reverse, index only) when `cachedMode=true` — for
either value of `reset`, the two cached-mode argument tuples being
identical.  The `cachedMode=true, reset=true` combination is the one the
source's NOTE excludes at the keybinding level. -/
theorem C1_amended (ctx : Nat) :
    (some ("-R") ∉ applyPatchArgs false false ctx
      ∧ some ("--cached") ∈ applyPatchArgs false false ctx)
    ∧ (some ("-R") ∈ applyPatchArgs false true ctx
      ∧ some ("--cached") ∉ applyPatchArgs false true ctx)
    ∧ (some ("-R") ∈ applyPatchArgs true true ctx
      ∧ some ("--cached") ∈ applyPatchArgs true true ctx)
    ∧ applyPatchArgs true false ctx = applyPatchArgs true true ctx := by
  by_cases hc : ctx = 0
  · subst hc
    decide
  · simp only [applyPatchArgs, if_neg hc]
    decide

/-! ## Claim C9 -/

/-- C9, confirmed: with the ignore-whitespace or word-diff toggle enabled,
`GsDiffStageOrResetHunkCommand.run` reports an error message and returns
with the settings unchanged — no `git apply`, no undo entry, no setting
write. -/
theorem C9_dirty_diff_guard (s : DiffViewSettings) (buf : List Char)
    (sel : List (Nat × Nat)) (reset : Bool)
    (h : s.ignore_whitespace = true ∨ s.show_word_diff = true) :
    gsDiffStageOrResetHunk s buf sel reset
      = (.errorMessage ("You have to be in a clean diff to stage."), s) := by
  unfold gsDiffStageOrResetHunk
  rcases h with h | h <;> simp [h]

/-- C9, witness: a concrete dirty-diff view refuses to stage. -/
theorem C9_witness :
    gsDiffStageOrResetHunk ({ ignore_whitespace := true } : DiffViewSettings)
        buf1 [(40, 40)] false
      = (.errorMessage ("You have to be in a clean diff to stage."),
          ({ ignore_whitespace := true } : DiffViewSettings)) :=
  C9_dirty_diff_guard _ buf1 [(40, 40)] false (Or.inl rfl)

/-! ## Claim C7 -/

/-- C7, confirmed: once `disable_diff` is set, a refresh is a no-op (no git
invocation, no text or settings change), any sequence of refreshes leaves
the settings untouched, and the flag is set by a refresh exactly when it was
already set or the diff computation failed with a decode error. -/
theorem C7_sticky_disable (s : DiffViewSettings) (rel : Option (List Char))
    (git : GitResult) (gits : List GitResult)
    (h : s.disable_diff = true) :
    gsDiffRefresh s rel git =
      { settings := s, newText := none, calledGit := false
      , navigated := false, raised := false }
    ∧ refreshIterate s rel gits = s
    ∧ ∀ (s' : DiffViewSettings) (g : GitResult),
        ((gsDiffRefresh s' rel g).settings.disable_diff = true ↔
          (s'.disable_diff = true ∨ g = .err true)) := by
  refine ⟨by simp [gsDiffRefresh, h], ?_, ?_⟩
  · unfold refreshIterate
    induction gits with
    | nil => rfl
    | cons g gs ih =>
      rw [List.foldl_cons]
      have hg : (gsDiffRefresh s rel g).settings = s := by
        simp [gsDiffRefresh, h]
      rw [hg]
      exact ih
  · intro s' g
    by_cases hd : s'.disable_diff = true
    · simp [gsDiffRefresh, hd]
    · have hd' : s'.disable_diff = false := by
        revert hd
        cases s'.disable_diff <;> simp
      cases g with
      | ok d => simp [gsDiffRefresh, hd']
      | err de =>
        cases de
        · simp [gsDiffRefresh, hd']
        · simp [gsDiffRefresh, hd']

/-- C7, witness: a concrete disabled view ignores a successful refresh. -/
theorem C7_witness :
    gsDiffRefresh ({ disable_diff := true } : DiffViewSettings) none (.ok []) =
      { settings := ({ disable_diff := true } : DiffViewSettings)
      , newText := none, calledGit := false, navigated := false
      , raised := false } :=
  (C7_sticky_disable ({ disable_diff := true } : DiffViewSettings) none
    (.ok []) [] rfl).1

/-! ## Claim C10 -/

/-- `GsDiffRefreshCommand._run` writes only `raw_diff` and (on decode
failure) `disable_diff`; every other setting is preserved. -/
theorem gsDiffRefresh_frame (s : DiffViewSettings) (rel : Option (List Char))
    (git : GitResult) :
    (gsDiffRefresh s rel git).settings.in_cached_mode = s.in_cached_mode
    ∧ (gsDiffRefresh s rel git).settings.history = s.history
    ∧ (gsDiffRefresh s rel git).settings.just_hunked = s.just_hunked
    ∧ (gsDiffRefresh s rel git).settings.context_lines = s.context_lines
    ∧ (gsDiffRefresh s rel git).settings.ignore_whitespace = s.ignore_whitespace
    ∧ (gsDiffRefresh s rel git).settings.show_word_diff = s.show_word_diff
    ∧ (gsDiffRefresh s rel git).settings.last_cursors = s.last_cursors
    ∧ (gsDiffRefresh s rel git).settings.base_commit = s.base_commit
    ∧ (gsDiffRefresh s rel git).settings.target_commit = s.target_commit := by
  by_cases h : s.disable_diff = true
  · simp [gsDiffRefresh, h]
  · have h' : s.disable_diff = false := by
      revert h
      cases s.disable_diff <;> simp
    cases git with
    | ok d => simp [gsDiffRefresh, h']
    | err de => cases de <;> simp [gsDiffRefresh, h']

/-- C10, confirmed: when both `base_commit` and `target_commit` are set
(truthy), `GsDiffToggleCachedMode.run` swaps the two commit settings and
triggers a refresh, leaving `in_cached_mode`, the history, the
`just_hunked` hint, the context-line count, both toggles and the saved
cursors unchanged, and touching no cursor or status message of its own. -/
theorem C10_toggle_swap (s : DiffViewSettings) (rel : Option (List Char))
    (viewText : List Char) (sel : List (Nat × Nat)) (git : GitResult)
    (h1 : truthy s.base_commit = true) (h2 : truthy s.target_commit = true) :
    (gsDiffToggleCachedMode s rel viewText sel git).settings.base_commit
        = s.target_commit
    ∧ (gsDiffToggleCachedMode s rel viewText sel git).settings.target_commit
        = s.base_commit
    ∧ (gsDiffToggleCachedMode s rel viewText sel git).refreshed = true
    ∧ (gsDiffToggleCachedMode s rel viewText sel git).settings.in_cached_mode
        = s.in_cached_mode
    ∧ (gsDiffToggleCachedMode s rel viewText sel git).settings.history
        = s.history
    ∧ (gsDiffToggleCachedMode s rel viewText sel git).settings.just_hunked
        = s.just_hunked
    ∧ (gsDiffToggleCachedMode s rel viewText sel git).settings.context_lines
        = s.context_lines
    ∧ (gsDiffToggleCachedMode s rel viewText sel git).settings.ignore_whitespace
        = s.ignore_whitespace
    ∧ (gsDiffToggleCachedMode s rel viewText sel git).settings.show_word_diff
        = s.show_word_diff
    ∧ (gsDiffToggleCachedMode s rel viewText sel git).settings.last_cursors
        = s.last_cursors
    ∧ (gsDiffToggleCachedMode s rel viewText sel git).cursorTarget = none
    ∧ (gsDiffToggleCachedMode s rel viewText sel git).statusMessage = none := by
  obtain ⟨f1, f2, f3, f4, f5, f6, f7, f8, f9⟩ := gsDiffRefresh_frame
    { s with base_commit := s.target_commit, target_commit := s.base_commit }
    rel git
  unfold gsDiffToggleCachedMode
  rw [if_pos (by rw [h1, h2]; rfl)]
  exact ⟨f8, f9, rfl, f1, f2, f3, f4, f5, f6, f7, rfl, rfl⟩

/-- Settings of a commit-range diff view (both commits set). -/
def swapSettings : DiffViewSettings :=
  { base_commit := some ("A".data), target_commit := some ("B".data) }

/-- C10, witness: a concrete commit-range view swaps the commits. -/
theorem C10_witness :
    (gsDiffToggleCachedMode swapSettings none buf1 [] (.ok [])).settings.base_commit
      = some ("B".data) :=
  (C10_toggle_swap swapSettings none buf1 [] (.ok []) rfl rfl).1

/-! ## Claim C8 -/

theorem get?_dropLast {α : Type} (l : List α) (n : Nat) (h : n + 1 < l.length) :
    l.dropLast.get? n = l.get? n := by
  rw [List.dropLast_eq_take]
  exact List.get?_take (by omega)

theorem shrinkAux_nil {α : Type} (f : Nat) : shrinkAux (α := α) f [] = [] := by
  cases f <;> rfl

theorem shrinkAux_congr {α : Type} :
    ∀ (f1 f2 : Nat) (l : List α), l.length ≤ f1 → l.length ≤ f2 →
      shrinkAux f1 l = shrinkAux f2 l := by
  intro f1
  induction f1 with
  | zero =>
    intro f2 l h1 _
    have hl : l = [] := List.length_eq_zero.mp (Nat.le_zero.mp h1)
    subst hl
    rw [shrinkAux_nil, shrinkAux_nil]
  | succ g ih =>
    intro f2 l h1 h2
    cases l with
    | nil => rw [shrinkAux_nil, shrinkAux_nil]
    | cons x xs =>
      cases f2 with
      | zero => simp at h2
      | succ g2 =>
        show (x :: xs) :: shrinkAux g xs.dropLast
          = (x :: xs) :: shrinkAux g2 xs.dropLast
        congr 1
        apply ih
        · rw [List.length_dropLast]
          simp only [List.length_cons] at h1
          omega
        · rw [List.length_dropLast]
          simp only [List.length_cons] at h2
          omega

theorem shrinkListSym_nil {α : Type} : shrinkListSym (α := α) [] = [] := rfl

theorem shrinkListSym_cons {α : Type} (l : List α) (h : l ≠ []) :
    shrinkListSym l = l :: shrinkListSym ((l.drop 1).dropLast) := by
  cases l with
  | nil => exact absurd rfl h
  | cons x xs =>
    show (x :: xs) :: shrinkAux xs.length xs.dropLast
      = (x :: xs) :: shrinkListSym xs.dropLast
    congr 1
    exact shrinkAux_congr xs.length xs.dropLast.length xs.dropLast
      (by rw [List.length_dropLast]; omega) (Nat.le_refl _)

theorem nil_not_mem_shrinkAux {α : Type} :
    ∀ (f : Nat) (l : List α), [] ∉ shrinkAux f l := by
  intro f
  induction f with
  | zero =>
    intro l
    cases l <;> simp [shrinkAux]
  | succ g ih =>
    intro l
    cases l with
    | nil => simp [shrinkAux]
    | cons x xs =>
      show [] ∉ (x :: xs) :: shrinkAux g xs.dropLast
      intro hmem
      rcases List.mem_cons.mp hmem with h | h
      · simp at h
      · exact ih _ h

theorem middle_mem_shrinkListSym {α : Type} :
    ∀ (n : Nat) (l : List α) (x : α), l.length = 2 * n + 1 →
      l.get? n = some x → [x] ∈ shrinkListSym l := by
  intro n
  induction n with
  | zero =>
    intro l x hlen hget
    cases l with
    | nil => simp at hlen
    | cons y ys =>
      simp only [List.length_cons] at hlen
      have hys : ys = [] := List.length_eq_zero.mp (by omega)
      subst hys
      have hx : y = x := by simpa using hget
      subst hx
      rw [shrinkListSym_cons _ (by simp)]
      simp [shrinkListSym_nil]
  | succ m ih =>
    intro l x hlen hget
    cases l with
    | nil => simp at hlen
    | cons a xs =>
      simp only [List.length_cons] at hlen
      have hxs' : xs.dropLast.length = 2 * m + 1 := by
        rw [List.length_dropLast]
        omega
      have hget' : xs.dropLast.get? m = some x := by
        rw [get?_dropLast _ _ (by rw [List.length_dropLast] at hxs'; omega)]
        simpa using hget
      have hmem := ih xs.dropLast x hxs' hget'
      rw [shrinkListSym_cons _ (by simp)]
      exact List.mem_cons_of_mem _ (by simpa using hmem)

/-- C8, counterexample: `shrink_list_sym` never yields the empty list — for
the odd-length list `[1, 2, 3]` its last yield is the middle singleton
`[2]`, not `[]`, refuting "the generator yields the empty list as its last
step". -/
theorem C8_counterexample :
    (shrinkListSym [1, 2, 3]).getLast? = some [2]
    ∧ [] ∉ shrinkListSym [1, 2, 3] := by
  constructor
  · decide
  · decide

/-- C8, amended: `shrink_list_sym` yields nothing for the empty list;
otherwise it yields the list itself and then the yields for the list with
first and last element dropped; the empty list is never yielded (iteration
stops at the last non-empty shrink); and for an odd-length list the middle
singleton is eventually yielded. -/
theorem C8_amended {α : Type} (l : List α) :
    shrinkListSym (α := α) [] = []
    ∧ (l ≠ [] → shrinkListSym l = l :: shrinkListSym ((l.drop 1).dropLast))
    ∧ [] ∉ shrinkListSym l
    ∧ (∀ n x, l.length = 2 * n + 1 → l.get? n = some x →
        [x] ∈ shrinkListSym l) := by
  refine ⟨shrinkListSym_nil, shrinkListSym_cons l, nil_not_mem_shrinkAux _ _, ?_⟩
  intro n x h1 h2
  exact middle_mem_shrinkListSym n l x h1 h2

/-- C8, witness: for the concrete odd-length list `[1, 2, 3]` the middle
singleton `[2]` is yielded. -/
theorem C8_witness : [2] ∈ shrinkListSym [1, 2, 3] :=
  (C8_amended [1, 2, 3]).2.2.2 1 2 rfl rfl

/-! ## Claim C6 -/

/-- The fundamental line-number formula of `_recount_lines`: the `b` of the
`j`-th produced line is the start `b0` plus the number of preceding
non-deleted lines. -/
theorem recountLines_b (lines : List (List Char)) :
    ∀ (b0 : Nat) (hl : List HunkLine) (j : Nat) (x : HunkLine),
      recountLines lines b0 = some hl → hl.get? j = some x →
      x.b = b0 + ((hl.take j).countP (fun y => y.mode != '-')) := by
  induction lines with
  | nil =>
    intro b0 hl j x hrec hget
    simp only [recountLines, Option.some_inj] at hrec
    subst hrec
    simp at hget
  | cons line ls ih =>
    intro b0 hl j x hrec hget
    cases line with
    | nil => simp [recountLines] at hrec
    | cons c rest =>
      simp only [recountLines] at hrec
      cases htl : recountLines ls (if c = '-' then b0 else b0 + 1) with
      | none =>
        rw [htl] at hrec
        simp at hrec
      | some tl =>
        rw [htl] at hrec
        simp only [Option.map_some', Option.some_inj] at hrec
        subst hrec
        cases j with
        | zero =>
          have hx : x = { mode := c, text := rest, b := b0 } := by
            simpa using hget.symm
          subst hx
          simp
        | succ m =>
          have hget' : tl.get? m = some x := by simpa using hget
          have hihx := ih (if c = '-' then b0 else b0 + 1) tl m x htl hget'
          rw [List.take_succ_cons, List.countP_cons]
          by_cases hc : c = '-'
          · subst hc
            simp only [if_pos rfl] at hihx
            simpa using hihx
          · rw [if_neg hc] at hihx
            rw [hihx]
            have hx2 : (c != '-') = true := by simpa using hc
            simp [hx2]
            omega

/-- `countP` over longer prefixes does not decrease. -/
theorem countP_take_mono {α : Type} (l : List α) (p : α → Bool) :
    ∀ i j, i ≤ j → (l.take i).countP p ≤ (l.take j).countP p := by
  intro i j
  induction j with
  | zero =>
    intro hij
    have : i = 0 := Nat.le_zero.mp hij
    rw [this]
  | succ m ih =>
    intro hij
    rcases Nat.lt_or_ge m i with hmi | him
    · have : i = m + 1 := by omega
      rw [this]
    · calc (l.take i).countP p ≤ (l.take m).countP p := ih him
        _ ≤ (l.take (m + 1)).countP p := by
          rw [List.take_succ, List.countP_append]
          omega

/-- `countP` over a prefix is unchanged when the added positions all hold
deleted lines. -/
theorem countP_take_stable (hl : List HunkLine) (i : Nat) :
    ∀ j, i ≤ j →
      (∀ k xk, i ≤ k → k < j → hl.get? k = some xk → xk.mode = '-') →
      ((hl.take j).countP (fun y => y.mode != '-'))
        = ((hl.take i).countP (fun y => y.mode != '-')) := by
  intro j
  induction j with
  | zero =>
    intro hij _
    have : i = 0 := Nat.le_zero.mp hij
    rw [this]
  | succ m ih =>
    intro hij hall
    rcases Nat.lt_or_ge m i with hmi | him
    · have : i = m + 1 := by omega
      rw [this]
    · have h1 := ih him (fun k xk hk1 hk2 hg => hall k xk hk1 (by omega) hg)
      rw [List.take_succ, List.countP_append, h1]
      cases hg : hl[m]? with
      | none => simp
      | some xm =>
        have hg' : hl.get? m = some xm := by
          rw [List.get?_eq_getElem?]
          exact hg
        have hm : xm.mode = '-' := hall m xm him (by omega) hg'
        simp [List.countP_cons, hm]

/-- C6, confirmed: in the `HunkLine` sequence produced by `split_hunk`, the
b-side line number is non-decreasing, increases by exactly 1 after every
line whose mode is not `'-'`, and stays constant from a deleted line up to
(and including) the next line whenever only deleted lines lie strictly
between — in particular every deleted line carries the same `b` as the
nearest following retained line. -/
theorem C6_line_numbers (hunk : List Char) (hl : List HunkLine)
    (h : split_hunk hunk = some hl) :
    (∀ i j xi xj, i ≤ j → hl.get? i = some xi → hl.get? j = some xj →
      xi.b ≤ xj.b)
    ∧ (∀ i xi xj, hl.get? i = some xi → hl.get? (i + 1) = some xj →
        xi.mode ≠ '-' → xj.b = xi.b + 1)
    ∧ (∀ i j xi xj, i < j → hl.get? i = some xi → hl.get? j = some xj →
        xi.mode = '-' →
        (∀ k xk, i < k → k < j → hl.get? k = some xk → xk.mode = '-') →
        xj.b = xi.b) := by
  obtain ⟨tail, b0, hrec⟩ :
      ∃ tail b0, recountLines tail b0 = some hl := by
    unfold split_hunk at h
    split at h
    · exact absurd h (by simp)
    · split at h
      · exact absurd h (by simp)
      · exact ⟨_, _, h⟩
  refine ⟨?_, ?_, ?_⟩
  · intro i j xi xj hij hgi hgj
    rw [recountLines_b tail b0 hl i xi hrec hgi,
        recountLines_b tail b0 hl j xj hrec hgj]
    have := countP_take_mono hl (fun y => y.mode != '-') i j hij
    omega
  · intro i xi xj hgi hgj hmode
    rw [recountLines_b tail b0 hl i xi hrec hgi,
        recountLines_b tail b0 hl (i + 1) xj hrec hgj]
    have hgi' : hl[i]? = some xi := by
      rw [← List.get?_eq_getElem?]
      exact hgi
    rw [List.take_succ, List.countP_append, hgi']
    have hx : (xi.mode != '-') = true := by simpa using hmode
    simp [List.countP_cons, hx]
    omega
  · intro i j xi xj hij hgi hgj hmode hall
    rw [recountLines_b tail b0 hl i xi hrec hgi,
        recountLines_b tail b0 hl j xj hrec hgj]
    have hst := countP_take_stable hl i j (Nat.le_of_lt hij)
      (fun k xk hk1 hk2 hg => by
        rcases Nat.eq_or_lt_of_le hk1 with hk | hk
        · rw [← hk] at hg
          rw [hgi] at hg
          injection hg with hg'
          rw [← hg']
          exact hmode
        · exact hall k xk hk hk2 hg)
    omega

/-- C6, witness: in the example hunk, the `b` of the line after the
retained line `' line1'` (namely `'+line2'`) is one greater. -/
theorem C6_witness :
    ({ mode := '+', text := "line2".data, b := 2 } : HunkLine).b
      = ({ mode := ' ', text := "line1".data, b := 1 } : HunkLine).b + 1 :=
  (C6_line_numbers exampleHunk exampleHunkLines (by decide)).2.1 0
    { mode := ' ', text := "line1".data, b := 1 }
    { mode := '+', text := "line2".data, b := 2 }
    (by decide) (by decide) (by decide)

/-! ## Claim C3 -/

/-- The scan of `real_rowcol_in_hunk` from a deleted line returns the
deleted line's own `(b, 1)` when no following line has mode `'+'` or
`' '`. -/
theorem deletedLineFallback_none (del : HunkLine) (col : Nat) :
    ∀ pre : List HunkLine, (∀ y ∈ pre, y.mode ≠ '+' ∧ y.mode ≠ ' ') →
      deletedLineFallback del col pre = (del.b, 1) := by
  intro pre
  induction pre with
  | nil => intro _; rfl
  | cons y ys ih =>
    intro hall
    have hy := hall y (List.mem_cons_self _ _)
    simp only [deletedLineFallback]
    rw [if_neg hy.1, if_neg hy.2]
    exact ih (fun z hz => hall z (List.mem_cons_of_mem _ hz))

/-- The scan of `real_rowcol_in_hunk` from a deleted line is decided by the
first following line whose mode is `'+'` or `' '` — whichever of the two
comes first. -/
theorem deletedLineFallback_first (del : HunkLine) (col : Nat) :
    ∀ (pre : List HunkLine) (l : HunkLine) (post : List HunkLine),
      (∀ y ∈ pre, y.mode ≠ '+' ∧ y.mode ≠ ' ') →
      (l.mode = '+' ∨ l.mode = ' ') →
      deletedLineFallback del col (pre ++ l :: post) =
        (if l.mode = '+' then (l.b, min col (l.text.length + 1))
         else if line_indentation l.text = line_indentation del.text then
           (l.b, line_indentation l.text + 1)
         else (max 1 (del.b - 1), 1)) := by
  intro pre
  induction pre with
  | nil =>
    intro l post _ hl
    rw [List.nil_append]
    simp only [deletedLineFallback]
    by_cases hp : l.mode = '+'
    · rw [if_pos hp, if_pos hp]
    · have hsp : l.mode = ' ' := by
        rcases hl with h | h
        · exact absurd h hp
        · exact h
      rw [if_neg hp, if_pos hsp, if_neg hp]
  | cons y ys ih =>
    intro l post hall hl
    rw [List.cons_append]
    have hy := hall y (List.mem_cons_self _ _)
    simp only [deletedLineFallback]
    rw [if_neg hy.1, if_neg hy.2]
    exact ih l post (fun z hz => hall z (List.mem_cons_of_mem _ hz)) hl

/-- C3, counterexample: in the hunk `@@ -1,2 +1,2 @@\n-del\n ctx\n+add` a
cursor on the deleted line resolves through the *context* line `' ctx'`
(the first following non-deleted line), yielding `(1, 1)` — not through the
later `'+add'` line, which the claim's "first `+` line … failing that"
order would pick (it predicts `(2, 1)`). -/
theorem C3_counterexample :
    real_rowcol_in_hunk hunk3 (1, 1) = some (1, 1)
    ∧ specDeletedLineTarget { mode := '-', text := "del".data, b := 1 } 1
        [ { mode := ' ', text := "ctx".data, b := 1 }
        , { mode := '+', text := "add".data, b := 2 } ] = (2, 1)
    ∧ split_hunk hunk3 = some
        [ { mode := '-', text := "del".data, b := 1 }
        , { mode := ' ', text := "ctx".data, b := 1 }
        , { mode := '+', text := "add".data, b := 2 } ]
    ∧ ((1 : Nat), (1 : Nat)) ≠ ((2 : Nat), (1 : Nat)) := by
  refine ⟨by decide, by decide, by decide, by decide⟩

/-- C3, amended: for a cursor on a deleted line the code scans forward and
the *first* following line whose mode is `'+'` or `' '` decides the result
(a `'+'` line yields `(b, min(col, len+1))`, a `' '` line the indentation
rule); only when no such line follows is `(deletedLine.b, 1)` returned.
The claim's example holds: in
`@@ -1,3 +1,4 @@\n line1\n+line2\n-line3\n line4` a cursor on the
`-line3` row resolves to line4's position `(3, 1)`. -/
theorem C3_amended (del : HunkLine) (col : Nat) (pre post : List HunkLine)
    (l : HunkLine) :
    ((∀ y ∈ pre, y.mode ≠ '+' ∧ y.mode ≠ ' ') →
      (l.mode = '+' ∨ l.mode = ' ') →
      deletedLineFallback del col (pre ++ l :: post) =
        (if l.mode = '+' then (l.b, min col (l.text.length + 1))
         else if line_indentation l.text = line_indentation del.text then
           (l.b, line_indentation l.text + 1)
         else (max 1 (del.b - 1), 1)))
    ∧ ((∀ y ∈ pre, y.mode ≠ '+' ∧ y.mode ≠ ' ') →
        deletedLineFallback del col pre = (del.b, 1))
    ∧ real_rowcol_in_hunk exampleHunk (3, 1) = some (3, 1) := by
  refine ⟨?_, ?_, by decide⟩
  · intro hall hl
    exact deletedLineFallback_first del col pre l post hall hl
  · intro hall
    exact deletedLineFallback_none del col pre hall

/-- C3, witness: a deleted line immediately followed by a `'+'` line
resolves to that line's `b` with the clamped column. -/
theorem C3_witness :
    deletedLineFallback { mode := '-', text := "del".data, b := 1 } 1
      [ { mode := '+', text := "add".data, b := 2 } ] = (2, 1) := by
  have h := (C3_amended { mode := '-', text := "del".data, b := 1 } 1 [] []
    { mode := '+', text := "add".data, b := 2 }).1 (by simp) (Or.inl rfl)
  simpa using h

/-! ## Claim C5 -/

theorem splitNl_ne_nil (l : List Char) : splitNl l ≠ [] := by
  cases l with
  | nil => simp [splitNl]
  | cons c rest =>
    simp only [splitNl]
    by_cases hc : c = '\n'
    · simp [hc]
    · rw [if_neg hc]
      cases splitNl rest <;> simp

theorem two_le_splitNl_length {l : List Char} (h : '\n' ∈ l) :
    2 ≤ (splitNl l).length := by
  induction l with
  | nil => cases h
  | cons c rest ih =>
    simp only [splitNl]
    by_cases hc : c = '\n'
    · rw [if_pos hc]
      cases hsr : splitNl rest with
      | nil => exact absurd hsr (splitNl_ne_nil rest)
      | cons a as => simp
    · rw [if_neg hc]
      have hrest : '\n' ∈ rest := by
        rcases List.mem_cons.mp h with h' | h'
        · exact absurd h'.symm hc
        · exact h'
      have h2 := ih hrest
      cases hsr : splitNl rest with
      | nil => exact absurd hsr (splitNl_ne_nil rest)
      | cons a as =>
        rw [hsr] at h2
        simpa using h2

/-- One-step equation for `splitNl` at a non-newline head. -/
theorem splitNl_cons_of_ne (c : Char) (l : List Char) (hc : c ≠ '\n') :
    splitNl (c :: l) =
      match splitNl l with
      | l0 :: ls => (c :: l0) :: ls
      | [] => [[c]] := by
  simp only [splitNl]
  rw [if_neg hc]

/-- Splitting a concatenation whose first part ends in a newline: the last
(empty-so-far) piece of the first part merges with the second part's
pieces. -/
theorem splitNl_append_of_last_nl :
    ∀ (hdr hk : List Char), hdr.getLast? = some '\n' →
      splitNl (hdr ++ hk) = (splitNl hdr).dropLast ++ splitNl hk := by
  intro hdr
  induction hdr with
  | nil =>
    intro hk h
    simp at h
  | cons c rest ih =>
    intro hk hlast
    cases rest with
    | nil =>
      have hc : c = '\n' := by simpa using hlast
      subst hc
      simp [splitNl]
    | cons d rest' =>
      have hlast' : (d :: rest').getLast? = some '\n' := by
        rw [← hlast, List.getLast?_cons_cons]
      have ihh := ih hk hlast'
      by_cases hc : c = '\n'
      · subst hc
        show [] :: splitNl ((d :: rest') ++ hk)
            = ([] :: splitNl (d :: rest')).dropLast ++ splitNl hk
        rw [ihh]
        cases hS : splitNl (d :: rest') with
        | nil => exact absurd hS (splitNl_ne_nil _)
        | cons s S2 => rfl
      · have hnl : '\n' ∈ (d :: rest') := List.mem_of_mem_getLast? hlast'
        have h2 := two_le_splitNl_length hnl
        cases hS : splitNl (d :: rest') with
        | nil => exact absurd hS (splitNl_ne_nil _)
        | cons s S2 =>
          cases S2 with
          | nil =>
            rw [hS] at h2
            simp at h2
          | cons s2 S3 =>
            rw [hS] at ihh
            have hL : splitNl ((c :: d :: rest') ++ hk)
                = (c :: s) :: ((s2 :: S3).dropLast ++ splitNl hk) := by
              rw [List.cons_append, splitNl_cons_of_ne c _ hc, ihh]
              rfl
            have hR : splitNl (c :: d :: rest') = (c :: s) :: s2 :: S3 := by
              rw [splitNl_cons_of_ne c _ hc, hS]
            rw [hL, hR]
            rfl

/-- A newline-free prefix of a text is a prefix of the text's first
line. -/
theorem prefix_headI_splitNl :
    ∀ (pre l : List Char), (∀ c ∈ pre, c ≠ '\n') → pre <+: l →
      pre <+: (splitNl l).headI := by
  intro pre
  induction pre with
  | nil =>
    intro l _ _
    exact List.nil_prefix
  | cons c pre' ih =>
    intro l hnc hpre
    obtain ⟨t, ht⟩ := hpre
    have hc : c ≠ '\n' := hnc c (List.mem_cons_self _ _)
    cases hS : splitNl (pre' ++ t) with
    | nil => exact absurd hS (splitNl_ne_nil _)
    | cons l0 ls =>
      have hd : splitNl (c :: (pre' ++ t)) = (c :: l0) :: ls := by
        rw [splitNl_cons_of_ne c _ hc, hS]
      have hp' : pre' <+: l0 := by
        have hih := ih (pre' ++ t)
          (fun z hz => hnc z (List.mem_cons_of_mem _ hz)) ⟨t, rfl⟩
        rw [hS] at hih
        simpa using hih
      rw [← ht, List.cons_append, hd]
      exact List.cons_prefix_cons.mpr ⟨rfl, hp'⟩

/-- Boolean version of prefix membership for decidable-equality lists. -/
theorem isPrefixOf_eq_true {α : Type} [DecidableEq α] :
    ∀ (l1 l2 : List α), l1 <+: l2 → l1.isPrefixOf l2 = true := by
  intro l1
  induction l1 with
  | nil =>
    intro l2 _
    cases l2 <;> rfl
  | cons a t ih =>
    intro l2 h
    cases l2 with
    | nil => exact absurd h (by simp)
    | cons b t2 =>
      obtain ⟨hab, ht⟩ := List.cons_prefix_cons.mp h
      subst hab
      show (a == a && t.isPrefixOf t2) = true
      rw [ih t2 ht]
      simp

/-- C5, counterexample: on `buf2`, whose two hunks have identical text, the
second hunk's span is `(88, 107)` with owning header `(53, 88)`, yet
re-locating its extracted header+hunk text with `find_hunk_in_view`
returns offset 35 — the *first* literal occurrence of the `@@` line, which
belongs to the first hunk — not the original span start 88. -/
theorem C5_counterexample :
    (parse_diff_in_view buf2).headers = [(0, 35), (53, 88)]
    ∧ (parse_diff_in_view buf2).hunks = [(35, 53), (88, 107)]
    ∧ head_and_hunk_for_pt (parse_diff_in_view buf2) 95
        = .ok (some ((53, 88), (88, 107)))
    ∧ find_hunk_in_view buf2
        (extract_content buf2 (53, 88) ++ extract_content buf2 (88, 107))
        = some 35
    ∧ (35 : Nat) ≠ 88 := by
  refine ⟨by decide, by decide, by decide, by decide, by decide⟩

/-- C5, amended: re-locating extracted header+hunk text returns the offset
of the *first* literal occurrence of the hunk's `@@` header line in the
buffer.  This equals the original hunk span's start exactly when the first
occurrence of that line is at the span start (e.g. when the header line's
text occurs nowhere earlier); for duplicated hunk texts the first
occurrence wins. -/
theorem C5_amended (buf hdr hk : List Char) (kstart : Nat)
    (hend : hdr.getLast? = some '\n')
    (hnoHdr : ∀ l2 ∈ splitNl hdr, notHunkStart l2 = true)
    (hstart : ("@@ ".data) <+: hk)
    (hfirst : viewFind buf ((splitNl hk).headI) = some kstart) :
    find_hunk_in_view buf (hdr ++ hk) = some kstart := by
  have hsplit := splitNl_append_of_last_nl hdr hk hend
  have hpfx : ("@@ ".data) <+: (splitNl hk).headI :=
    prefix_headI_splitNl ("@@ ".data) hk (by decide) hstart
  have hall : ∀ l2 ∈ (splitNl hdr).dropLast, notHunkStart l2 = true := by
    intro l2 hl2
    apply hnoHdr
    rw [List.dropLast_eq_take] at hl2
    exact List.take_subset _ _ hl2
  cases hS : splitNl hk with
  | nil => exact absurd hS (splitNl_ne_nil _)
  | cons h0 rest =>
    have hh0 : notHunkStart h0 = false := by
      rw [hS] at hpfx
      simp only [List.headI] at hpfx
      unfold notHunkStart
      rw [isPrefixOf_eq_true _ _ hpfx]
      rfl
    have hextr : extract_first_hunk (hdr ++ hk)
        = some (h0 :: rest.takeWhile notHunkStart) := by
      unfold extract_first_hunk
      rw [hsplit, hS, List.dropWhile_append_of_pos hall,
        List.dropWhile_cons_of_neg (by simp [hh0])]
    have hf : viewFind buf h0 = some kstart := by
      rw [hS] at hfirst
      simpa using hfirst
    simp only [find_hunk_in_view, hextr, hf]

/-- C5, witness: on the single-file buffer `buf1` (whose `@@` line occurs
only at the hunk start 35), the round trip for the hunk span `(35, 54)`
with header span `(0, 35)` returns 35. -/
theorem C5_witness :
    find_hunk_in_view buf1
      (extract_content buf1 (0, 35) ++ extract_content buf1 (35, 54))
      = some 35 :=
  C5_amended buf1 (extract_content buf1 (0, 35))
    (extract_content buf1 (35, 54)) 35 (by decide) (by decide) (by decide)
    (by decide)
